import Mathlib

/-! Shallow embedding of the EvanRTOS kernel sources (eos_kernel.c, eos_semaphore.c,
eos_queue.c) and proofs about the scheduler, blocking primitives, semaphores and
queues.

A TCB is modelled as a record of its scheduling-relevant fields.  The C field
`void* blocked` is a `Nat` wait token: 0 stands for the NULL pointer (runnable),
2 for the sentinel `EOS_TIMED_OUT ((void*)2)`, and any other value for the address
of the semaphore or queue the task waits on.  The singly linked circular ring of
TCBs is modelled as the list of TCBs in ring order starting at `run_ptr`: `running`
is the TCB `run_ptr` points at, `rest` lists the nodes visited by following `next`
from `run_ptr->next` until the walk returns to `run_ptr`.  The PRIMASK interrupt
flag toggled by `EOS_EnterCritical` (`__disable_irq`) and `EOS_ExitCritical`
(`__enable_irq`) is a `Bool` (`true` = interrupts masked). -/

namespace EvanRTOS

/-- `EOS_status_t` from eos_kernel.h. -/
inductive EOS_status where
  | EOS_ERROR
  | EOS_OK
  | EOS_BLOCKED
  | EOS_USE_FPU
  | EOS_NO_FPU
  deriving Repr, DecidableEq

/-- `EOS_block_status_t` from eos_kernel.h. -/
inductive EOS_block_status where
  | EOS_BLOCK
  | EOS_NO_BLOCK
  deriving Repr, DecidableEq

/-- `#define EOS_TIMED_OUT ((void*)2)`: the sleep sentinel stored in `blocked`. -/
def EOS_TIMED_OUT : Nat := 2

/-- `#define EOS_PAUSED 1`. -/
def EOS_PAUSED : Nat := 1

/-- `PRIORITY_IDLE = 0`, `PRIORITY_LOW = 1`, `PRIORITY_MEDIUM = 2`, `PRIORITY_HIGH = 3`. -/
def PRIORITY_HIGH : Nat := 3

/-- `EOS_TCB_t` (eos_kernel.h), restricted to the fields the kernel logic reads:
`sp` and `next` are represented externally (the ring is a list). -/
structure EOS_TCB where
  blocked : Nat
  timeOut : Nat
  priority : Nat
  paused : Nat
  deriving Repr, DecidableEq

/-- A TCB is runnable exactly when `blocked == 0 && paused == 0`
(the test used by `EOS_scheduler`). -/
def runnable (t : EOS_TCB) : Prop := t.blocked = 0 ∧ t.paused = 0

instance (t : EOS_TCB) : Decidable (runnable t) := by
  unfold runnable; infer_instance

/-- The accumulator loop of `EOS_scheduler` (eos_kernel.c lines 230-236):
walk the candidates in ring order, replacing `best_pointer` whenever the
candidate is runnable and its priority is `>=` the current best's. -/
def schedBest (best : EOS_TCB) (cands : List EOS_TCB) : EOS_TCB :=
  cands.foldl
    (fun b c => if c.blocked = 0 ∧ c.paused = 0 ∧ b.priority ≤ c.priority then c else b) best

/-- `EOS_scheduler` (eos_kernel.c lines 219-240).  `running` is the TCB at
`run_ptr`, `rest` the rest of the ring in walk order from `run_ptr->next`.
`idlePos` locates `idle_task`: `none` means `idle_task` is `run_ptr` itself,
`some i` that it is `rest[i]`.  When `run_ptr` is unrunnable the C code restarts
the walk at `idle_task.next`, so only the nodes strictly after the idle TCB and
strictly before `run_ptr` are scanned (`rest.drop (i+1)`). -/
def EOS_scheduler (running idle : EOS_TCB) (rest : List EOS_TCB) (idlePos : Option Nat) :
    EOS_TCB :=
  if running.blocked = 0 ∧ running.paused = 0 then
    schedBest running rest
  else
    match idlePos with
    | none => schedBest idle rest
    | some i => schedBest idle (rest.drop (i + 1))

/-- `EOS_Pause` (eos_kernel.c lines 344-368), with the PRIMASK interrupt flag made
explicit.  Arguments: the task handle (`none` = NULL pointer), whether the handle
equals `run_ptr`, and the mask at entry.  Result: return status, the task's TCB
after the call, the mask at return, and whether a context switch was pended
(`EOS_Suspend`).  The C body enters the critical section first and, on the two
error returns, never leaves it. -/
def EOS_Pause (task : Option EOS_TCB) (isRunning : Bool) (maskAtEntry : Bool) :
    EOS_status × Option EOS_TCB × Bool × Bool :=
  let _ := maskAtEntry
  -- EOS_EnterCritical(): mask := true
  match task with
  | none => (.EOS_ERROR, none, true, false)          -- return EOS_ERROR (no ExitCritical)
  | some t =>
    if t.paused ≠ 0 then (.EOS_ERROR, some t, true, false)  -- return EOS_ERROR (no ExitCritical)
    else
      let t' := { t with paused := EOS_PAUSED }
      if isRunning then
        (.EOS_OK, some t', false, true)              -- ExitCritical; Suspend; ExitCritical
      else
        (.EOS_OK, some t', false, false)             -- ExitCritical

/-- `EOS_Resume` (eos_kernel.c lines 382-399), same conventions as `EOS_Pause`.
Both error returns happen inside the critical section without an ExitCritical. -/
def EOS_Resume (task : Option EOS_TCB) (maskAtEntry : Bool) :
    EOS_status × Option EOS_TCB × Bool :=
  let _ := maskAtEntry
  match task with
  | none => (.EOS_ERROR, none, true)
  | some t =>
    if t.paused ≠ EOS_PAUSED then (.EOS_ERROR, some t, true)
    else (.EOS_OK, some { t with paused := 0 }, false)

lemma schedBest_runnable (cands : List EOS_TCB) (best : EOS_TCB) (h : runnable best) :
    runnable (schedBest best cands) := by
  induction cands generalizing best with
  | nil => exact h
  | cons c l ih =>
    by_cases hc : c.blocked = 0 ∧ c.paused = 0 ∧ best.priority ≤ c.priority
    · simpa [schedBest, hc] using ih c ⟨hc.1, hc.2.1⟩
    · simpa [schedBest, hc] using ih best h

/-- C1: after every scheduler invocation from a state in which the idle TCB is
runnable (as it is in every reachable kernel state: the idle task never blocks nor
pauses), the elected `running` is runnable — in particular, the claimed
disjunction "running is runnable, or running is the idle TCB and no other TCB is
runnable" holds. -/
theorem scheduler_elects_runnable (running idle : EOS_TCB) (rest : List EOS_TCB)
    (idlePos : Option Nat) (hidle : runnable idle) :
    runnable (EOS_scheduler running idle rest idlePos) ∨
      (EOS_scheduler running idle rest idlePos = idle ∧ ∀ t ∈ rest, ¬ runnable t) := by
  left
  unfold EOS_scheduler
  by_cases hr : running.blocked = 0 ∧ running.paused = 0
  · simpa [hr] using schedBest_runnable rest running hr
  · cases idlePos with
    | none => simpa [hr] using schedBest_runnable rest idle hidle
    | some i => simpa [hr] using schedBest_runnable (rest.drop (i + 1)) idle hidle

/-- Witness for C1 at a concrete state: a blocked `running`, a runnable idle TCB
and a ring with one runnable MEDIUM task. -/
theorem scheduler_elects_runnable_witness :
    runnable (EOS_scheduler ⟨5, 0, 2, 0⟩ ⟨0, 0, 0, 0⟩ [⟨0, 0, 2, 0⟩] (some 0)) ∨
      (EOS_scheduler ⟨5, 0, 2, 0⟩ ⟨0, 0, 0, 0⟩ [⟨0, 0, 2, 0⟩] (some 0) = ⟨0, 0, 0, 0⟩ ∧
        ∀ t ∈ [(⟨0, 0, 2, 0⟩ : EOS_TCB)], ¬ runnable t) :=
  scheduler_elects_runnable ⟨5, 0, 2, 0⟩ ⟨0, 0, 0, 0⟩ [⟨0, 0, 2, 0⟩] (some 0) ⟨rfl, rfl⟩

/-- The loop body of `EOS_TaskUnblock` (eos_kernel.c lines 443-455): remember the
first TCB whose `blocked` equals the token, replacing it only when a later one has
strictly greater priority.  `i` is the candidate's index in the walk. -/
def stepWaiter (token : Nat) (best : Option (Nat × EOS_TCB)) (i : Nat) (c : EOS_TCB) :
    Option (Nat × EOS_TCB) :=
  if c.blocked = token then
    match best with
    | none => some (i, c)
    | some (j, b) => if b.priority < c.priority then some (i, c) else some (j, b)
  else best

/-- The do-while walk of `EOS_TaskUnblock`, scanning the ring left to right with
the `best_ptr` accumulator. -/
def findBestIdx (token : Nat) : List EOS_TCB → Nat → Option (Nat × EOS_TCB) →
    Option (Nat × EOS_TCB)
  | [], _, best => best
  | c :: l, i, best => findBestIdx token l (i + 1) (stepWaiter token best i c)

/-- `EOS_TaskUnblock` (eos_kernel.c lines 438-467).  The do-while runs from
`run_ptr->next` and stops when the walk returns to `run_ptr`; in a singleton ring
(`rest = []`) `run_ptr->next == run_ptr`, so the single visited node is `run_ptr`
itself.  Returns the updated `running` TCB, the updated rest of the ring, and
whether a context switch was pended (`best_ptr->priority > run_ptr->priority`). -/
def EOS_TaskUnblock (token : Nat) (running : EOS_TCB) (rest : List EOS_TCB) :
    EOS_TCB × List EOS_TCB × Bool :=
  if rest = [] then
    if running.blocked = token then
      ({ running with blocked := 0 }, [], decide (running.priority < running.priority))
    else (running, [], false)
  else
    match findBestIdx token rest 0 none with
    | none => (running, rest, false)
    | some (i, b) =>
        (running, rest.set i { b with blocked := 0 }, decide (running.priority < b.priority))

/-- Merge two optional (index, TCB) candidates the way the `best_ptr` update does:
keep the left one unless the right one has strictly greater priority. -/
def mergeW : Option (Nat × EOS_TCB) → Option (Nat × EOS_TCB) → Option (Nat × EOS_TCB)
  | none, r => r
  | some x, none => some x
  | some (j, b), some (k, c) => if b.priority < c.priority then some (k, c) else some (j, b)

/-- Shift the index of a candidate by `i0`. -/
def shiftW (i0 : Nat) : Option (Nat × EOS_TCB) → Option (Nat × EOS_TCB)
  | none => none
  | some (k, d) => some (i0 + k, d)

/-- Structural version of the waiter search: the earliest waiter of maximal
priority, with its index. -/
def pickWaiter (token : Nat) : List EOS_TCB → Option (Nat × EOS_TCB)
  | [] => none
  | c :: l =>
    if c.blocked = token then
      match pickWaiter token l with
      | none => some (0, c)
      | some (k, d) => if c.priority < d.priority then some (k + 1, d) else some (0, c)
    else
      match pickWaiter token l with
      | none => none
      | some (k, d) => some (k + 1, d)

lemma mergeW_assoc (a b c : Option (Nat × EOS_TCB)) :
    mergeW (mergeW a b) c = mergeW a (mergeW b c) := by
  rcases a with _ | ⟨j, x⟩
  · rfl
  rcases b with _ | ⟨k, y⟩
  · rfl
  rcases c with _ | ⟨m, z⟩
  · simp [mergeW]; split_ifs <;> simp [mergeW]
  by_cases h1 : x.priority < y.priority
  · by_cases h2 : y.priority < z.priority
    · have h3 : x.priority < z.priority := lt_trans h1 h2
      simp [mergeW, h1, h2, h3]
    · simp [mergeW, h1, h2]
  · by_cases h2 : y.priority < z.priority
    · by_cases h3 : x.priority < z.priority
      · simp [mergeW, h1, h2, h3]
      · simp [mergeW, h1, h2, h3]
    · have h3 : ¬ x.priority < z.priority := by omega
      simp [mergeW, h1, h2, h3]

lemma shiftW_mergeW (i0 : Nat) (a b : Option (Nat × EOS_TCB)) :
    shiftW i0 (mergeW a b) = mergeW (shiftW i0 a) (shiftW i0 b) := by
  rcases a with _ | ⟨j, x⟩
  · rfl
  rcases b with _ | ⟨k, y⟩
  · rfl
  by_cases h : x.priority < y.priority <;> simp [mergeW, shiftW, h]

lemma pickWaiter_cons (token : Nat) (c : EOS_TCB) (l : List EOS_TCB) :
    pickWaiter token (c :: l) =
      mergeW (if c.blocked = token then some (0, c) else none)
        (shiftW 1 (pickWaiter token l)) := by
  by_cases hc : c.blocked = token
  · cases hpl : pickWaiter token l with
    | none => simp [pickWaiter, hc, hpl, mergeW, shiftW]
    | some kd =>
        obtain ⟨k, d⟩ := kd
        by_cases hp : c.priority < d.priority <;>
          simp [pickWaiter, hc, hpl, mergeW, shiftW, hp, Nat.add_comm 1 k]
  · cases hpl : pickWaiter token l with
    | none => simp [pickWaiter, hc, hpl, mergeW, shiftW]
    | some kd =>
        obtain ⟨k, d⟩ := kd
        simp [pickWaiter, hc, hpl, mergeW, shiftW, Nat.add_comm 1 k]

lemma shiftW_shiftW (i0 i1 : Nat) (a : Option (Nat × EOS_TCB)) :
    shiftW i0 (shiftW i1 a) = shiftW (i0 + i1) a := by
  rcases a with _ | ⟨k, d⟩ <;> simp [shiftW, Nat.add_assoc]

/-- The left-to-right accumulator walk equals the structural waiter search merged
with the incoming accumulator. -/
lemma findBestIdx_eq (token : Nat) (l : List EOS_TCB) :
    ∀ (i0 : Nat) (acc : Option (Nat × EOS_TCB)),
      findBestIdx token l i0 acc = mergeW acc (shiftW i0 (pickWaiter token l)) := by
  induction l with
  | nil =>
      intro i0 acc
      rcases acc with _ | ⟨j, b⟩ <;> simp [findBestIdx, pickWaiter, mergeW, shiftW]
  | cons c l ih =>
      intro i0 acc
      have hstep : stepWaiter token acc i0 c =
          mergeW acc (if c.blocked = token then some (i0, c) else none) := by
        rcases acc with _ | ⟨j, b⟩ <;> by_cases hc : c.blocked = token <;>
          simp [stepWaiter, mergeW, hc] <;> split_ifs <;> simp [mergeW]
      calc findBestIdx token (c :: l) i0 acc
          = findBestIdx token l (i0 + 1) (stepWaiter token acc i0 c) := rfl
        _ = mergeW (stepWaiter token acc i0 c) (shiftW (i0 + 1) (pickWaiter token l)) :=
            ih (i0 + 1) _
        _ = mergeW acc (mergeW (if c.blocked = token then some (i0, c) else none)
              (shiftW (i0 + 1) (pickWaiter token l))) := by
            rw [hstep, mergeW_assoc]
        _ = mergeW acc (shiftW i0 (pickWaiter token (c :: l))) := by
            rw [pickWaiter_cons, shiftW_mergeW, shiftW_shiftW]
            congr 1
            by_cases hc : c.blocked = token <;> simp [shiftW, hc]

lemma pickWaiter_eq_none (token : Nat) (l : List EOS_TCB)
    (h : ∀ c ∈ l, c.blocked ≠ token) : pickWaiter token l = none := by
  induction l with
  | nil => rfl
  | cons c l ih =>
      have hc : c.blocked ≠ token := h c (List.mem_cons_self c l)
      have hl : pickWaiter token l = none := ih fun x hx => h x (List.mem_cons_of_mem c hx)
      simp [pickWaiter, hc, hl]

lemma pickWaiter_none_imp (token : Nat) (l : List EOS_TCB)
    (h : pickWaiter token l = none) : ∀ c ∈ l, c.blocked ≠ token := by
  induction l with
  | nil => intro c hc; cases hc
  | cons c l ih =>
      by_cases hc : c.blocked = token
      · exfalso
        cases hpl : pickWaiter token l with
        | none => simp [pickWaiter, hc, hpl] at h
        | some kd =>
            obtain ⟨k, d⟩ := kd
            simp only [pickWaiter, hc, if_true, hpl] at h
            split_ifs at h <;> simp at h
      · cases hpl : pickWaiter token l with
        | none =>
            intro x hx
            rcases List.mem_cons.mp hx with rfl | hx
            · exact hc
            · exact ih hpl x hx
        | some kd =>
            obtain ⟨k, d⟩ := kd
            simp [pickWaiter, hc, hpl] at h

/-- Soundness of the structural waiter search: the result indexes a waiter of
maximal priority, and is the first waiter achieving that priority. -/
lemma pickWaiter_some (token : Nat) (l : List EOS_TCB) (k : Nat) (b : EOS_TCB)
    (h : pickWaiter token l = some (k, b)) :
    k < l.length ∧ l[k]? = some b ∧ b.blocked = token ∧
      ∀ j (c : EOS_TCB), l[j]? = some c → c.blocked = token →
        c.priority ≤ b.priority ∧ (j < k → c.priority < b.priority) := by
  induction l generalizing k b with
  | nil => simp [pickWaiter] at h
  | cons a l ih =>
      by_cases ha : a.blocked = token
      · cases hpl : pickWaiter token l with
        | none =>
            have hnw := pickWaiter_none_imp token l hpl
            simp only [pickWaiter, ha, if_true, hpl, Option.some.injEq,
              Prod.mk.injEq] at h
            obtain ⟨hk, hb⟩ := h
            subst hb
            rw [← hk]
            refine ⟨Nat.succ_pos _, List.getElem?_cons_zero, ha, ?_⟩
            intro j c hc hcb
            cases j with
            | zero =>
                rw [List.getElem?_cons_zero, Option.some.injEq] at hc
                subst hc; exact ⟨le_refl _, by omega⟩
            | succ j =>
                rw [List.getElem?_cons_succ] at hc
                exact absurd hcb (hnw c (List.getElem?_mem hc))
        | some kd =>
            obtain ⟨k', d⟩ := kd
            obtain ⟨hk', hgd, hdb, hmax⟩ := ih k' d hpl
            simp only [pickWaiter, ha, if_true, hpl] at h
            by_cases hprio : a.priority < d.priority
            · simp only [hprio, if_true, Option.some.injEq, Prod.mk.injEq] at h
              obtain ⟨hk, hb⟩ := h
              subst hb
              rw [← hk]
              refine ⟨by simp; omega, by simpa using hgd, hdb, ?_⟩
              intro j c hc hcb
              cases j with
              | zero =>
                  rw [List.getElem?_cons_zero, Option.some.injEq] at hc
                  subst hc
                  exact ⟨le_of_lt hprio, fun _ => hprio⟩
              | succ j =>
                  rw [List.getElem?_cons_succ] at hc
                  obtain ⟨h1, h2⟩ := hmax j c hc hcb
                  exact ⟨h1, fun hj => h2 (by omega)⟩
            · simp only [hprio, if_false, Option.some.injEq, Prod.mk.injEq] at h
              obtain ⟨hk, hb⟩ := h
              subst hb
              rw [← hk]
              refine ⟨Nat.succ_pos _, List.getElem?_cons_zero, ha, ?_⟩
              intro j c hc hcb
              cases j with
              | zero =>
                  rw [List.getElem?_cons_zero, Option.some.injEq] at hc
                  subst hc; exact ⟨le_refl _, by omega⟩
              | succ j =>
                  rw [List.getElem?_cons_succ] at hc
                  obtain ⟨h1, _⟩ := hmax j c hc hcb
                  exact ⟨le_trans h1 (by omega), by omega⟩
      · cases hpl : pickWaiter token l with
        | none => simp [pickWaiter, ha, hpl] at h
        | some kd =>
            obtain ⟨k', d⟩ := kd
            obtain ⟨hk', hgd, hdb, hmax⟩ := ih k' d hpl
            simp only [pickWaiter, ha, if_false, hpl, Option.some.injEq,
              Prod.mk.injEq] at h
            obtain ⟨hk, hb⟩ := h
            subst hb
            rw [← hk]
            refine ⟨by simp; omega, by simpa using hgd, hdb, ?_⟩
            intro j c hc hcb
            cases j with
            | zero =>
                rw [List.getElem?_cons_zero, Option.some.injEq] at hc
                subst hc; exact absurd hcb ha
            | succ j =>
                rw [List.getElem?_cons_succ] at hc
                obtain ⟨h1, h2⟩ := hmax j c hc hcb
                exact ⟨h1, fun hj => h2 (by omega)⟩

lemma findBestIdx_main (token : Nat) (rest : List EOS_TCB) :
    findBestIdx token rest 0 none = pickWaiter token rest := by
  rw [findBestIdx_eq]
  cases h : pickWaiter token rest with
  | none => rfl
  | some kd => obtain ⟨k, d⟩ := kd; simp [mergeW, shiftW]

/-- C4 (amended to rings that contain a TCB besides `running`): `EOS_TaskUnblock`
is a no-op when no TCB in the walk waits on the token; otherwise it clears the
`blocked` field of exactly one TCB — a waiter of maximal priority, the first such
waiter in walk order from `running`'s successor — leaves every other TCB's entry
unchanged, and pends a context switch exactly when that waiter's priority strictly
exceeds `running`'s. -/
theorem taskUnblock_spec (token : Nat) (running : EOS_TCB) (rest : List EOS_TCB)
    (hne : rest ≠ []) :
    ((∀ c ∈ rest, c.blocked ≠ token) →
        EOS_TaskUnblock token running rest = (running, rest, false)) ∧
    ((∃ c ∈ rest, c.blocked = token) →
        ∃ i b, rest[i]? = some b ∧ b.blocked = token ∧
          EOS_TaskUnblock token running rest =
            (running, rest.set i { b with blocked := 0 },
              decide (running.priority < b.priority)) ∧
          (∀ j (d : EOS_TCB), rest[j]? = some d → d.blocked = token →
            d.priority ≤ b.priority ∧ (j < i → d.priority < b.priority)) ∧
          (∀ j, j ≠ i → (rest.set i { b with blocked := 0 })[j]? = rest[j]?)) := by
  constructor
  · intro hnw
    have hp : pickWaiter token rest = none := pickWaiter_eq_none token rest hnw
    simp [EOS_TaskUnblock, hne, findBestIdx_main, hp]
  · intro hex
    cases hp : pickWaiter token rest with
    | none =>
        obtain ⟨c, hc, hcb⟩ := hex
        exact absurd hcb (pickWaiter_none_imp token rest hp c hc)
    | some kd =>
        obtain ⟨k, b⟩ := kd
        obtain ⟨hk, hget, hbb, hmax⟩ := pickWaiter_some token rest k b hp
        refine ⟨k, b, hget, hbb, ?_, hmax, ?_⟩
        · simp [EOS_TaskUnblock, hne, findBestIdx_main, hp]
        · intro j hj
          exact List.getElem?_set_ne (fun h => hj h.symm)

/-- Witness for C4: token 7, `running` at MEDIUM, ring rest holding a LOW waiter
followed by a HIGH waiter; the theorem applies with both conjuncts usable. -/
theorem taskUnblock_spec_witness :
    ((∀ c ∈ [(⟨7, 0, 1, 0⟩ : EOS_TCB), ⟨7, 0, 3, 0⟩], c.blocked ≠ 7) →
        EOS_TaskUnblock 7 ⟨0, 0, 2, 0⟩ [⟨7, 0, 1, 0⟩, ⟨7, 0, 3, 0⟩] =
          (⟨0, 0, 2, 0⟩, [⟨7, 0, 1, 0⟩, ⟨7, 0, 3, 0⟩], false)) ∧
    ((∃ c ∈ [(⟨7, 0, 1, 0⟩ : EOS_TCB), ⟨7, 0, 3, 0⟩], c.blocked = 7) →
        ∃ i b, [(⟨7, 0, 1, 0⟩ : EOS_TCB), ⟨7, 0, 3, 0⟩][i]? = some b ∧ b.blocked = 7 ∧
          EOS_TaskUnblock 7 ⟨0, 0, 2, 0⟩ [⟨7, 0, 1, 0⟩, ⟨7, 0, 3, 0⟩] =
            (⟨0, 0, 2, 0⟩, [(⟨7, 0, 1, 0⟩ : EOS_TCB), ⟨7, 0, 3, 0⟩].set i
              { b with blocked := 0 },
              decide ((⟨0, 0, 2, 0⟩ : EOS_TCB).priority < b.priority)) ∧
          (∀ j (d : EOS_TCB), [(⟨7, 0, 1, 0⟩ : EOS_TCB), ⟨7, 0, 3, 0⟩][j]? = some d →
            d.blocked = 7 → d.priority ≤ b.priority ∧ (j < i → d.priority < b.priority)) ∧
          (∀ j, j ≠ i →
            ([(⟨7, 0, 1, 0⟩ : EOS_TCB), ⟨7, 0, 3, 0⟩].set i { b with blocked := 0 })[j]? =
              [(⟨7, 0, 1, 0⟩ : EOS_TCB), ⟨7, 0, 3, 0⟩][j]?)) :=
  taskUnblock_spec 7 ⟨0, 0, 2, 0⟩ [⟨7, 0, 1, 0⟩, ⟨7, 0, 3, 0⟩] (by simp)

/-- Counterexample to C4 as frozen (it quantifies over every ring): in the
singleton ring — `run_ptr->next == run_ptr`, the initial ring of the kernel — the
do-while of `EOS_TaskUnblock` visits `run_ptr` itself, so with
`running.blocked == token` it clears `running`'s blocked field although no TCB
other than `running` waits on the token, where the claim requires changing
nothing. -/
theorem taskUnblock_singleton_counterexample :
    (EOS_TaskUnblock 5 ⟨5, 0, 1, 0⟩ []).1.blocked = 0 ∧
      (⟨5, 0, 1, 0⟩ : EOS_TCB).blocked = 5 ∧
      EOS_TaskUnblock 5 ⟨5, 0, 1, 0⟩ [] ≠ (⟨5, 0, 1, 0⟩, [], false) := by
  refine ⟨rfl, rfl, ?_⟩
  decide

/-- `EOS_semaphore_t` (eos_semaphore.h): `count` is a uint32 written only through
guarded increments and decrements, so `Nat` is exact. -/
structure EOS_semaphore where
  count : Nat
  max_count : Nat
  deriving Repr, DecidableEq

/-- `EOS_SemaphoreNew` (eos_semaphore.c lines 90-102), allocation succeeding: the
uint8_t argument is reduced mod 256 at the call boundary; there is no validity
check and `count = max_count = n`. -/
def EOS_SemaphoreNew (count : Nat) : EOS_semaphore :=
  { count := count % 256, max_count := count % 256 }

/-- The success test of `EOS_SemaphoreAcquire` (eos_semaphore.c lines 42-45):
under the critical section, if `count > 0` decrement and return OK; otherwise the
task blocks (`none`; the suspend-retest loop is `semAcquireWrites`). -/
def semTryAcquire (sem : EOS_semaphore) : Option EOS_semaphore :=
  if sem.count > 0 then some { sem with count := sem.count - 1 } else none

/-- `EOS_SemaphoreRelease` (eos_semaphore.c lines 63-79).  `semId` is the wait
token identifying this semaphore.  Returns the status, the semaphore after the
call, and the ring after `EOS_TaskUnblock`. -/
def EOS_SemaphoreRelease (sem : EOS_semaphore) (semId : Nat) (running : EOS_TCB)
    (rest : List EOS_TCB) :
    EOS_status × EOS_semaphore × (EOS_TCB × List EOS_TCB × Bool) :=
  if sem.count ≥ sem.max_count then (.EOS_ERROR, sem, (running, rest, false))
  else (.EOS_OK, { sem with count := sem.count + 1 }, EOS_TaskUnblock semId running rest)

/-- The wait loop of `EOS_SemaphoreAcquire` (eos_semaphore.c lines 41-52) as a
state transformer over the running TCB's `blocked` field: `obs` lists the values
of `semaphore->count` observed at each test under the critical section, and the
result lists the values written to `run_ptr->blocked`, one before each
suspension. -/
def semAcquireWrites (token : Nat) : List Nat → List Nat
  | [] => []
  | c :: obs => if c > 0 then [] else token :: semAcquireWrites token obs

/-- The inner retest loop of `EOS_QueueGet` (eos_queue.c lines 99-104): each
iteration exits the critical section, suspends and re-enters without writing to
`run_ptr->blocked`. -/
def queueGetRetryWrites : List Nat → List Nat
  | [] => []
  | c :: obs => if c = 0 then queueGetRetryWrites obs else []

/-- The wait path of `EOS_QueueGet` on an empty queue in BLOCK mode (eos_queue.c
lines 90-105) as a state transformer over `run_ptr->blocked`: tag the queue once,
suspend, then retest without re-tagging. -/
def queueGetWrites (token : Nat) : List Nat → List Nat
  | [] => []
  | c :: obs => if c = 0 then token :: queueGetRetryWrites obs else []

/-- `EOS_queue_t` (eos_queue.h): the `size * item_size` byte buffer is modelled as
one abstract item value per slot. -/
structure EOS_queue where
  buffer : List Nat
  head : Nat
  tail : Nat
  size : Nat
  item_size : Nat
  count : Nat
  deriving Repr, DecidableEq

/-- `EOS_QueueCreate` (eos_queue.c lines 47-69), allocation succeeding:
`head = tail = count = 0` over a buffer of `size` slots; `size` is not
validated. -/
def EOS_QueueCreate (size item_size : Nat) : EOS_queue :=
  { buffer := List.replicate size 0, head := 0, tail := 0,
    size := size, item_size := item_size, count := 0 }

/-- `EOS_QueueGet` (eos_queue.c lines 86-123).  `qId` is this queue's wait token.
`none` models the BLOCK-mode wait on an empty queue (the task tags itself blocked
and suspends, per `queueGetWrites`; the dequeue happens only once `count > 0`).
Otherwise: the status, the item copied out (`none` when BLOCKED), the queue after
the call, and the ring after `EOS_TaskUnblock`. -/
def EOS_QueueGet (q : EOS_queue) (block : EOS_block_status) (qId : Nat)
    (running : EOS_TCB) (rest : List EOS_TCB) :
    Option (EOS_status × Option Nat × EOS_queue × (EOS_TCB × List EOS_TCB × Bool)) :=
  if q.count = 0 then
    match block with
    | .EOS_BLOCK => none
    | .EOS_NO_BLOCK => some (.EOS_BLOCKED, none, q, (running, rest, false))
  else
    some (.EOS_OK, some (q.buffer.getD q.head 0),
      { q with head := (q.head + 1) % q.size, count := q.count - 1 },
      EOS_TaskUnblock qId running rest)

/-- `EOS_QueuePut` (eos_queue.c lines 140-175), conventions as `EOS_QueueGet`:
`none` models the BLOCK-mode wait on a full queue. -/
def EOS_QueuePut (q : EOS_queue) (item : Nat) (block : EOS_block_status) (qId : Nat)
    (running : EOS_TCB) (rest : List EOS_TCB) :
    Option (EOS_status × EOS_queue × (EOS_TCB × List EOS_TCB × Bool)) :=
  if q.count = q.size then
    match block with
    | .EOS_BLOCK => none
    | .EOS_NO_BLOCK => some (.EOS_BLOCKED, q, (running, rest, false))
  else
    some (.EOS_OK,
      { q with buffer := q.buffer.set q.tail item,
               tail := (q.tail + 1) % q.size, count := q.count + 1 },
      EOS_TaskUnblock qId running rest)

/-- The per-TCB update of `EOS_HandleTimeout` (eos_kernel.c lines 478-489). -/
def timeoutStep (t : EOS_TCB) : EOS_TCB :=
  if t.blocked = EOS_TIMED_OUT ∧ t.paused = 0 then
    if 0 < t.timeOut then
      let t' := { t with timeOut := t.timeOut - 1 }
      if t'.timeOut = 0 then { t' with blocked := 0 } else t'
    else t
  else t

/-- `EOS_HandleTimeout` (eos_kernel.c lines 472-492): walk the ring from
`run_ptr->next` back to `run_ptr` (exclusive), updating each TCB in place. -/
def EOS_HandleTimeout (rest : List EOS_TCB) : List EOS_TCB := rest.map timeoutStep

/-- C2 fails: the claim (and the spec) require every primitive to leave the
critical section on every return path, but both error paths of `EOS_Pause` and of
`EOS_Resume` return with the interrupt mask still set although it was clear at
entry: `EOS_Pause(NULL)`, pausing an already-paused task, `EOS_Resume(NULL)` and
resuming a non-paused task all return `EOS_ERROR` with PRIMASK = masked. -/
theorem pause_resume_leak_critical_section :
    (EOS_Pause none false false).2.2.1 = true ∧
    (EOS_Pause (some ⟨0, 0, 2, 1⟩) false false).2.2.1 = true ∧
    (EOS_Resume none false).2.2 = true ∧
    (EOS_Resume (some ⟨0, 0, 2, 0⟩) false).2.2 = true := by
  refine ⟨rfl, ?_, rfl, ?_⟩ <;> decide

/-- C5: with `count ≤ max_count`, `EOS_SemaphoreRelease` returns ERROR iff
`count = max_count` at entry, in which case the semaphore, the ring and every
TCB's blocked field are left unchanged; otherwise it returns OK and increments
`count` by exactly one. -/
theorem semaphoreRelease_spec (sem : EOS_semaphore) (semId : Nat) (running : EOS_TCB)
    (rest : List EOS_TCB) (hle : sem.count ≤ sem.max_count) :
    ((EOS_SemaphoreRelease sem semId running rest).1 = .EOS_ERROR ↔
      sem.count = sem.max_count) ∧
    (sem.count = sem.max_count →
      EOS_SemaphoreRelease sem semId running rest =
        (.EOS_ERROR, sem, (running, rest, false))) ∧
    (sem.count ≠ sem.max_count →
      (EOS_SemaphoreRelease sem semId running rest).1 = .EOS_OK ∧
      (EOS_SemaphoreRelease sem semId running rest).2.1.count = sem.count + 1 ∧
      (EOS_SemaphoreRelease sem semId running rest).2.1.max_count = sem.max_count) := by
  by_cases hc : sem.count ≥ sem.max_count
  · have heq : sem.count = sem.max_count := le_antisymm hle hc
    refine ⟨⟨fun _ => heq, fun _ => by simp [EOS_SemaphoreRelease, hc]⟩, fun _ => ?_,
      fun hne => absurd heq hne⟩
    · simp [EOS_SemaphoreRelease, hc]
  · have hne : sem.count ≠ sem.max_count := by omega
    refine ⟨⟨fun h => ?_, fun h => absurd h hne⟩, fun h => absurd h hne, fun _ => ?_⟩
    · simp [EOS_SemaphoreRelease, hc] at h
    · simp [EOS_SemaphoreRelease, hc]

/-- Witness for C5 at a semaphore with `count = 0`, `max_count = 1`. -/
theorem semaphoreRelease_spec_witness :
    ((EOS_SemaphoreRelease ⟨0, 1⟩ 9 ⟨0, 0, 2, 0⟩ []).1 = .EOS_ERROR ↔
      (⟨0, 1⟩ : EOS_semaphore).count = (⟨0, 1⟩ : EOS_semaphore).max_count) ∧
    ((⟨0, 1⟩ : EOS_semaphore).count = (⟨0, 1⟩ : EOS_semaphore).max_count →
      EOS_SemaphoreRelease ⟨0, 1⟩ 9 ⟨0, 0, 2, 0⟩ [] =
        (.EOS_ERROR, ⟨0, 1⟩, (⟨0, 0, 2, 0⟩, [], false))) ∧
    ((⟨0, 1⟩ : EOS_semaphore).count ≠ (⟨0, 1⟩ : EOS_semaphore).max_count →
      (EOS_SemaphoreRelease ⟨0, 1⟩ 9 ⟨0, 0, 2, 0⟩ []).1 = .EOS_OK ∧
      (EOS_SemaphoreRelease ⟨0, 1⟩ 9 ⟨0, 0, 2, 0⟩ []).2.1.count =
        (⟨0, 1⟩ : EOS_semaphore).count + 1 ∧
      (EOS_SemaphoreRelease ⟨0, 1⟩ 9 ⟨0, 0, 2, 0⟩ []).2.1.max_count =
        (⟨0, 1⟩ : EOS_semaphore).max_count) :=
  semaphoreRelease_spec ⟨0, 1⟩ 9 ⟨0, 0, 2, 0⟩ [] (by decide)

/-- C9: `EOS_SemaphoreNew 0` is accepted and yields `count = max_count = 0`; on
the result every `EOS_SemaphoreRelease` returns `EOS_ERROR` leaving the semaphore,
the ring and all blocked fields unchanged, and the acquire test `count > 0` never
succeeds, so the semaphore can be neither acquired nor released. -/
theorem semaphoreNew_zero_unusable (semId : Nat) (running : EOS_TCB)
    (rest : List EOS_TCB) :
    (EOS_SemaphoreNew 0).count = 0 ∧ (EOS_SemaphoreNew 0).max_count = 0 ∧
    EOS_SemaphoreRelease (EOS_SemaphoreNew 0) semId running rest =
      (.EOS_ERROR, EOS_SemaphoreNew 0, (running, rest, false)) ∧
    semTryAcquire (EOS_SemaphoreNew 0) = none := by
  refine ⟨rfl, rfl, ?_, rfl⟩
  simp [EOS_SemaphoreRelease, EOS_SemaphoreNew]

lemma queueGetRetryWrites_eq_nil (obs : List Nat) : queueGetRetryWrites obs = [] := by
  induction obs with
  | nil => rfl
  | cons c obs ih => by_cases hc : c = 0 <;> simp [queueGetRetryWrites, hc, ih]

/-- C3 counterexample: with wait token 5 and count observations `[0, 0, 1]` (two
failed tests before success), the semaphore wait loop writes `blocked := token`
before each of its two suspensions, while the `EOS_QueueGet` wait loop writes it
only before the first: the two loops are not equal as state transformers over the
running TCB's blocked field. -/
theorem queueGet_wait_ne_semAcquire_wait :
    semAcquireWrites 5 [0, 0, 1] = [5, 5] ∧ queueGetWrites 5 [0, 0, 1] = [5] ∧
      queueGetWrites 5 [0, 0, 1] ≠ semAcquireWrites 5 [0, 0, 1] := by decide

/-- C3 amended: `EOS_SemaphoreAcquire` re-tags `blocked := token` before every
suspension (once per failed test), while the wait loop of `EOS_QueueGet` tags it
exactly once, before the first suspension; the two loops agree as state
transformers over the blocked field exactly when at most one test fails. -/
theorem queueGet_wait_tags_once (token : Nat) (obs : List Nat) :
    semAcquireWrites token obs =
      List.replicate (obs.takeWhile (fun c => c = 0)).length token ∧
    queueGetWrites token obs =
      List.replicate (min (obs.takeWhile (fun c => c = 0)).length 1) token ∧
    (queueGetWrites token obs = semAcquireWrites token obs ↔
      (obs.takeWhile (fun c => c = 0)).length ≤ 1) := by
  have hsem : ∀ o : List Nat, semAcquireWrites token o =
      List.replicate (o.takeWhile (fun c => c = 0)).length token := by
    intro o
    induction o with
    | nil => rfl
    | cons c o ih =>
        by_cases hc : c = 0
        · subst hc
          simp [semAcquireWrites, List.takeWhile_cons, List.replicate_succ, ih]
        · have : c > 0 := Nat.pos_of_ne_zero hc
          simp [semAcquireWrites, List.takeWhile_cons, hc, this]
  have hq : queueGetWrites token obs =
      List.replicate (min (obs.takeWhile (fun c => c = 0)).length 1) token := by
    cases obs with
    | nil => rfl
    | cons c o =>
        by_cases hc : c = 0
        · subst hc
          simp [queueGetWrites, queueGetRetryWrites_eq_nil, List.takeWhile_cons,
            List.replicate_succ, Nat.min_def]
        · simp [queueGetWrites, List.takeWhile_cons, hc]
  refine ⟨hsem obs, hq, ?_⟩
  rw [hsem obs, hq]
  constructor
  · intro h
    have := congrArg List.length h
    simp only [List.length_replicate] at this
    omega
  · intro h
    have : min (obs.takeWhile (fun c => c = 0)).length 1 =
        (obs.takeWhile (fun c => c = 0)).length := by omega
    rw [this]

/-- C6: `EOS_HandleTimeout` visits every ring node except `running`, preserving
the walk's length; a visited TCB that is sleeping (`blocked == EOS_TIMED_OUT`),
not paused and has `timeout > 0` gets its timeout decremented by one and its
blocked field cleared exactly when the decrement reaches zero (all other fields
untouched); every other TCB — paused, not timed out, or with `timeout == 0` — is
left entirely unchanged. -/
theorem handleTimeout_spec (rest : List EOS_TCB) (i : Nat) (t : EOS_TCB)
    (hget : rest[i]? = some t) :
    (EOS_HandleTimeout rest).length = rest.length ∧
    (t.blocked = EOS_TIMED_OUT → t.paused = 0 → 0 < t.timeOut →
      ∃ u, (EOS_HandleTimeout rest)[i]? = some u ∧
        u.timeOut = t.timeOut - 1 ∧ (u.blocked = 0 ↔ t.timeOut = 1) ∧
        (t.timeOut ≠ 1 → u.blocked = EOS_TIMED_OUT) ∧
        u.paused = t.paused ∧ u.priority = t.priority) ∧
    (¬ (t.blocked = EOS_TIMED_OUT ∧ t.paused = 0 ∧ 0 < t.timeOut) →
      (EOS_HandleTimeout rest)[i]? = some t) := by
  have hmap : (EOS_HandleTimeout rest)[i]? = some (timeoutStep t) := by
    simp [EOS_HandleTimeout, List.getElem?_map, hget]
  refine ⟨by simp [EOS_HandleTimeout], ?_, ?_⟩
  · intro hb hp ht
    refine ⟨timeoutStep t, hmap, ?_⟩
    by_cases h1 : t.timeOut = 1
    · have hstep : timeoutStep t = { t with timeOut := t.timeOut - 1, blocked := 0 } := by
        simp [timeoutStep, hb, hp, ht, h1]
      rw [hstep]
      exact ⟨rfl, ⟨fun _ => h1, fun _ => rfl⟩, fun hne => absurd h1 hne, rfl, rfl⟩
    · have h0 : ¬ (t.timeOut - 1 = 0) := by omega
      have hstep : timeoutStep t = { t with timeOut := t.timeOut - 1 } := by
        simp [timeoutStep, hb, hp, ht, h0]
      rw [hstep]
      refine ⟨rfl, ?_, fun _ => hb, rfl, rfl⟩
      · show t.blocked = 0 ↔ t.timeOut = 1
        rw [hb]
        exact ⟨fun h => absurd h (by decide), fun h => absurd h h1⟩
  · intro hnot
    rw [hmap]
    rcases Decidable.not_and_iff_or_not.mp hnot with hb | h
    · simp [timeoutStep, hb]
    · rcases Decidable.not_and_iff_or_not.mp h with hp | ht
      · simp [timeoutStep, hp]
      · have ht0 : t.timeOut = 0 := by omega
        by_cases hb : t.blocked = EOS_TIMED_OUT ∧ t.paused = 0 <;>
          simp [timeoutStep, hb, ht0]

/-- Witness for C6: a ring with one sleeping TCB whose timeout is 1 (it wakes)
followed by a paused sleeper (its timeout is frozen). -/
theorem handleTimeout_spec_witness :
    ((EOS_HandleTimeout [⟨2, 1, 1, 0⟩, ⟨2, 4, 1, 1⟩]).length =
        [(⟨2, 1, 1, 0⟩ : EOS_TCB), ⟨2, 4, 1, 1⟩].length ∧
      ((⟨2, 1, 1, 0⟩ : EOS_TCB).blocked = EOS_TIMED_OUT →
        (⟨2, 1, 1, 0⟩ : EOS_TCB).paused = 0 → 0 < (⟨2, 1, 1, 0⟩ : EOS_TCB).timeOut →
        ∃ u, (EOS_HandleTimeout [⟨2, 1, 1, 0⟩, ⟨2, 4, 1, 1⟩])[0]? = some u ∧
          u.timeOut = (⟨2, 1, 1, 0⟩ : EOS_TCB).timeOut - 1 ∧
          (u.blocked = 0 ↔ (⟨2, 1, 1, 0⟩ : EOS_TCB).timeOut = 1) ∧
          ((⟨2, 1, 1, 0⟩ : EOS_TCB).timeOut ≠ 1 → u.blocked = EOS_TIMED_OUT) ∧
          u.paused = (⟨2, 1, 1, 0⟩ : EOS_TCB).paused ∧
          u.priority = (⟨2, 1, 1, 0⟩ : EOS_TCB).priority) ∧
      (¬ ((⟨2, 1, 1, 0⟩ : EOS_TCB).blocked = EOS_TIMED_OUT ∧
          (⟨2, 1, 1, 0⟩ : EOS_TCB).paused = 0 ∧ 0 < (⟨2, 1, 1, 0⟩ : EOS_TCB).timeOut) →
        (EOS_HandleTimeout [⟨2, 1, 1, 0⟩, ⟨2, 4, 1, 1⟩])[0]? = some ⟨2, 1, 1, 0⟩)) :=
  handleTimeout_spec [⟨2, 1, 1, 0⟩, ⟨2, 4, 1, 1⟩] 0 ⟨2, 1, 1, 0⟩ rfl

/-- The queue-descriptor invariant of C8. -/
def qInv (q : EOS_queue) : Prop :=
  q.count ≤ q.size ∧ q.head < q.size ∧ q.tail < q.size

instance (q : EOS_queue) : Decidable (qInv q) := by
  unfold qInv; infer_instance

/-- C8: for any queue of `size ≥ 1` satisfying the invariant, `EOS_QueueGet` and
`EOS_QueuePut` preserve it; get blocks (or returns BLOCKED) exactly when
`count = 0` and put exactly when `count = size` (empty iff `count = 0`, full iff
`count = size`); `head` advances by one modulo `size` exactly on a successful get
and `tail` exactly on a successful put, each leaving the other index unchanged. -/
theorem queue_ops_invariant (q : EOS_queue) (item qId : Nat) (block : EOS_block_status)
    (running : EOS_TCB) (rest : List EOS_TCB) (hsz : 1 ≤ q.size) (hinv : qInv q) :
    ((EOS_QueueGet q block qId running rest = none ↔
        q.count = 0 ∧ block = .EOS_BLOCK) ∧
      (q.count = 0 → block = .EOS_NO_BLOCK →
        EOS_QueueGet q block qId running rest =
          some (.EOS_BLOCKED, none, q, (running, rest, false))) ∧
      (0 < q.count →
        ∃ res, EOS_QueueGet q block qId running rest = some res ∧
          res.1 = .EOS_OK ∧ res.2.2.1.head = (q.head + 1) % q.size ∧
          res.2.2.1.tail = q.tail ∧ res.2.2.1.count = q.count - 1 ∧
          res.2.2.1.size = q.size ∧ qInv res.2.2.1)) ∧
    ((EOS_QueuePut q item block qId running rest = none ↔
        q.count = q.size ∧ block = .EOS_BLOCK) ∧
      (q.count = q.size → block = .EOS_NO_BLOCK →
        EOS_QueuePut q item block qId running rest =
          some (.EOS_BLOCKED, q, (running, rest, false))) ∧
      (q.count < q.size →
        ∃ res, EOS_QueuePut q item block qId running rest = some res ∧
          res.1 = .EOS_OK ∧ res.2.1.tail = (q.tail + 1) % q.size ∧
          res.2.1.head = q.head ∧ res.2.1.count = q.count + 1 ∧
          res.2.1.size = q.size ∧ qInv res.2.1)) := by
  obtain ⟨hcs, hh, ht⟩ := hinv
  constructor
  · refine ⟨?_, ?_, ?_⟩
    · constructor
      · intro h
        by_cases hc : q.count = 0
        · cases block with
          | EOS_BLOCK => exact ⟨hc, rfl⟩
          | EOS_NO_BLOCK => simp [EOS_QueueGet, hc] at h
        · simp [EOS_QueueGet, hc] at h
      · rintro ⟨hc, hb⟩
        simp [EOS_QueueGet, hc, hb]
    · intro hc hb
      simp [EOS_QueueGet, hc, hb]
    · intro hc
      have hc0 : ¬ q.count = 0 := by omega
      refine ⟨(.EOS_OK, some (q.buffer.getD q.head 0),
        { q with head := (q.head + 1) % q.size, count := q.count - 1 },
        EOS_TaskUnblock qId running rest), ?_, rfl, rfl, rfl, rfl, rfl, ?_⟩
      · simp [EOS_QueueGet, hc0]
      · exact ⟨show q.count - 1 ≤ q.size by omega,
          show (q.head + 1) % q.size < q.size from Nat.mod_lt _ (by omega),
          show q.tail < q.size from ht⟩
  · refine ⟨?_, ?_, ?_⟩
    · constructor
      · intro h
        by_cases hc : q.count = q.size
        · cases block with
          | EOS_BLOCK => exact ⟨hc, rfl⟩
          | EOS_NO_BLOCK => simp [EOS_QueuePut, hc] at h
        · simp [EOS_QueuePut, hc] at h
      · rintro ⟨hc, hb⟩
        simp [EOS_QueuePut, hc, hb]
    · intro hc hb
      simp [EOS_QueuePut, hc, hb]
    · intro hc
      have hc0 : ¬ q.count = q.size := by omega
      refine ⟨(.EOS_OK,
        { q with buffer := q.buffer.set q.tail item,
                 tail := (q.tail + 1) % q.size, count := q.count + 1 },
        EOS_TaskUnblock qId running rest), ?_, rfl, rfl, rfl, rfl, rfl, ?_⟩
      · simp [EOS_QueuePut, hc0]
      · exact ⟨show q.count + 1 ≤ q.size by omega,
          show q.head < q.size from hh,
          show (q.tail + 1) % q.size < q.size from Nat.mod_lt _ (by omega)⟩

/-- Witness for C8: a queue of size 2 holding one item, BLOCK mode. -/
theorem queue_ops_invariant_witness :
    1 ≤ (EOS_queue.mk [4, 0] 0 1 2 4 1).size ∧ qInv (EOS_queue.mk [4, 0] 0 1 2 4 1) ∧
    ((EOS_QueueGet (EOS_queue.mk [4, 0] 0 1 2 4 1) .EOS_BLOCK 9 ⟨0, 0, 2, 0⟩ [] =
        none ↔ (EOS_queue.mk [4, 0] 0 1 2 4 1).count = 0 ∧
          EOS_block_status.EOS_BLOCK = .EOS_BLOCK) ∧
      ((EOS_queue.mk [4, 0] 0 1 2 4 1).count = 0 →
        EOS_block_status.EOS_BLOCK = .EOS_NO_BLOCK →
        EOS_QueueGet (EOS_queue.mk [4, 0] 0 1 2 4 1) .EOS_BLOCK 9 ⟨0, 0, 2, 0⟩ [] =
          some (.EOS_BLOCKED, none, EOS_queue.mk [4, 0] 0 1 2 4 1,
            (⟨0, 0, 2, 0⟩, [], false))) ∧
      (0 < (EOS_queue.mk [4, 0] 0 1 2 4 1).count →
        ∃ res, EOS_QueueGet (EOS_queue.mk [4, 0] 0 1 2 4 1) .EOS_BLOCK 9
            ⟨0, 0, 2, 0⟩ [] = some res ∧
          res.1 = .EOS_OK ∧
          res.2.2.1.head = ((EOS_queue.mk [4, 0] 0 1 2 4 1).head + 1) %
            (EOS_queue.mk [4, 0] 0 1 2 4 1).size ∧
          res.2.2.1.tail = (EOS_queue.mk [4, 0] 0 1 2 4 1).tail ∧
          res.2.2.1.count = (EOS_queue.mk [4, 0] 0 1 2 4 1).count - 1 ∧
          res.2.2.1.size = (EOS_queue.mk [4, 0] 0 1 2 4 1).size ∧
          qInv res.2.2.1)) ∧
    ((EOS_QueuePut (EOS_queue.mk [4, 0] 0 1 2 4 1) 7 .EOS_BLOCK 9 ⟨0, 0, 2, 0⟩ [] =
        none ↔ (EOS_queue.mk [4, 0] 0 1 2 4 1).count =
          (EOS_queue.mk [4, 0] 0 1 2 4 1).size ∧
          EOS_block_status.EOS_BLOCK = .EOS_BLOCK) ∧
      ((EOS_queue.mk [4, 0] 0 1 2 4 1).count = (EOS_queue.mk [4, 0] 0 1 2 4 1).size →
        EOS_block_status.EOS_BLOCK = .EOS_NO_BLOCK →
        EOS_QueuePut (EOS_queue.mk [4, 0] 0 1 2 4 1) 7 .EOS_BLOCK 9 ⟨0, 0, 2, 0⟩ [] =
          some (.EOS_BLOCKED, EOS_queue.mk [4, 0] 0 1 2 4 1, (⟨0, 0, 2, 0⟩, [], false))) ∧
      ((EOS_queue.mk [4, 0] 0 1 2 4 1).count < (EOS_queue.mk [4, 0] 0 1 2 4 1).size →
        ∃ res, EOS_QueuePut (EOS_queue.mk [4, 0] 0 1 2 4 1) 7 .EOS_BLOCK 9
            ⟨0, 0, 2, 0⟩ [] = some res ∧
          res.1 = .EOS_OK ∧
          res.2.1.tail = ((EOS_queue.mk [4, 0] 0 1 2 4 1).tail + 1) %
            (EOS_queue.mk [4, 0] 0 1 2 4 1).size ∧
          res.2.1.head = (EOS_queue.mk [4, 0] 0 1 2 4 1).head ∧
          res.2.1.count = (EOS_queue.mk [4, 0] 0 1 2 4 1).count + 1 ∧
          res.2.1.size = (EOS_queue.mk [4, 0] 0 1 2 4 1).size ∧
          qInv res.2.1)) :=
  ⟨by decide, by decide,
    queue_ops_invariant (EOS_queue.mk [4, 0] 0 1 2 4 1) 7 9 .EOS_BLOCK ⟨0, 0, 2, 0⟩ []
      (by decide) (by decide)⟩

/-- C10: `EOS_QueueCreate 0 item_size` is accepted and yields a queue that is
simultaneously empty and full (`count = 0 = size`); every NO_BLOCK get and put on
it returns `EOS_BLOCKED` and leaves `head`, `tail`, `count` and the buffer
unchanged (the result carries the queue record unmodified). -/
theorem queueCreate_zero_blocked (item_size item qId : Nat) (running : EOS_TCB)
    (rest : List EOS_TCB) :
    (EOS_QueueCreate 0 item_size).count = 0 ∧
    (EOS_QueueCreate 0 item_size).size = 0 ∧
    (EOS_QueueCreate 0 item_size).count = (EOS_QueueCreate 0 item_size).size ∧
    EOS_QueueGet (EOS_QueueCreate 0 item_size) .EOS_NO_BLOCK qId running rest =
      some (.EOS_BLOCKED, none, EOS_QueueCreate 0 item_size, (running, rest, false)) ∧
    EOS_QueuePut (EOS_QueueCreate 0 item_size) item .EOS_NO_BLOCK qId running rest =
      some (.EOS_BLOCKED, EOS_QueueCreate 0 item_size, (running, rest, false)) := by
  refine ⟨rfl, rfl, rfl, ?_, ?_⟩ <;> rfl

/-- Kernel task-ring state for `EOS_ThreadNew`: TCB nodes are identified by
allocation order (id 0 is the statically allocated `idle_task`); `ring` lists the
node ids in ring order starting at `run_ptr` (the head), the last node's `next`
being the head; `nextId` is the id the next successful allocation returns. -/
structure KernelState where
  ring : List Nat
  nextId : Nat
  deriving Repr, DecidableEq

/-- The `next`-pointer function the list representation denotes: the successor of
`x` in the cyclic order of `l` (identity off the ring). -/
def cycNext (l : List Nat) (x : Nat) : Nat :=
  match l.findIdx? (fun y => y == x) with
  | none => x
  | some i => l.getD ((i + 1) % l.length) x

/-- The initial ring (eos_kernel.c lines 42-52): the static `idle_task`, whose
`next` points at itself, with `run_ptr = &idle_task`. -/
def initState : KernelState := { ring := [0], nextId := 1 }

/-- `EOS_ThreadNew` (eos_kernel.c lines 78-154) with allocation succeeding:
reject `stack_size < 64`, then `priority > PRIORITY_HIGH`; otherwise allocate a
fresh TCB and splice it in directly before `run_ptr` — the while loop at lines
143-147 walks `temp` from `run_ptr` until `temp->next == run_ptr`, then sets
`temp->next = control_block` and `control_block->next = run_ptr`, which appends
the new node at the end of the ring order starting at `run_ptr`.  Returns the new
state and the handle. -/
def EOS_ThreadNew (st : KernelState) (priority : Nat) (stack_size : Nat) :
    Option (KernelState × Nat) :=
  if stack_size < 64 then none
  else if priority > PRIORITY_HIGH then none
  else some ({ ring := st.ring ++ [st.nextId], nextId := st.nextId + 1 }, st.nextId)

/-- A sequence of `EOS_ThreadNew` calls (each argument pair is priority and
stack size), collecting the returned handles; `none` if any call fails. -/
def threadNewSeq (st : KernelState) : List (Nat × Nat) → Option (KernelState × List Nat)
  | [] => some (st, [])
  | (p, s) :: args =>
      match EOS_ThreadNew st p s with
      | none => none
      | some (st', h) =>
          match threadNewSeq st' args with
          | none => none
          | some (st'', hs) => some (st'', h :: hs)

lemma threadNewSeq_spec (args : List (Nat × Nat)) :
    ∀ (st st' : KernelState) (hs : List Nat), threadNewSeq st args = some (st', hs) →
      st'.ring = st.ring ++ hs ∧ hs = List.range' st.nextId args.length ∧
      st'.nextId = st.nextId + args.length := by
  induction args with
  | nil =>
      intro st st' hs h
      simp only [threadNewSeq, Option.some.injEq, Prod.mk.injEq] at h
      obtain ⟨h1, h2⟩ := h
      subst h1
      subst h2
      simp
  | cons ps args ih =>
      obtain ⟨p, s⟩ := ps
      intro st st' hs h
      cases hnew : EOS_ThreadNew st p s with
      | none => simp [threadNewSeq, hnew] at h
      | some sth =>
          obtain ⟨st₁, hd⟩ := sth
          cases hseq : threadNewSeq st₁ args with
          | none => simp [threadNewSeq, hnew, hseq] at h
          | some sths =>
              obtain ⟨st₂, hs'⟩ := sths
              simp only [threadNewSeq, hnew, hseq, Option.some.injEq, Prod.mk.injEq] at h
              obtain ⟨h1, h2⟩ := h
              subst h1
              subst h2
              obtain ⟨e1, e2, e3⟩ := ih st₁ st₂ hs' hseq
              simp only [EOS_ThreadNew] at hnew
              split_ifs at hnew with hs64 hpr
              simp only [Option.some.injEq, Prod.mk.injEq] at hnew
              obtain ⟨hst₁, hhd⟩ := hnew
              subst hhd
              subst hst₁
              simp only at e1 e2 e3
              refine ⟨?_, ?_, ?_⟩
              · rw [e1]; simp
              · rw [List.length_cons, List.range'_succ, ← e2]
              · rw [e3]; simp; omega

lemma findIdx_nodup (l : List Nat) (hnd : l.Nodup) :
    ∀ (i0 i x : Nat), l[i]? = some x →
      l.findIdx? (fun y => y == x) i0 = some (i0 + i) := by
  induction l with
  | nil => intro i0 i x h; simp at h
  | cons c l ih =>
      intro i0 i x h
      cases i with
      | zero =>
          rw [List.getElem?_cons_zero, Option.some.injEq] at h
          subst h
          simp [List.findIdx?_cons]
      | succ i =>
          rw [List.getElem?_cons_succ] at h
          have hx : x ∈ l := List.getElem?_mem h
          have hc : c ≠ x := fun he => (List.nodup_cons.mp hnd).1 (he ▸ hx)
          have hb : (c == x) = false := beq_eq_false_iff_ne.mpr hc
          rw [List.findIdx?_cons, hb]
          simp only [Bool.false_eq_true, if_false]
          rw [ih (List.nodup_cons.mp hnd).2 (i0 + 1) i x h]
          congr 1
          omega

lemma findIdx_append_fresh (l : List Nat) (x : Nat) (hx : x ∉ l) :
    ∀ i0, (l ++ [x]).findIdx? (fun y => y == x) i0 = some (i0 + l.length) := by
  induction l with
  | nil => intro i0; simp [List.findIdx?_cons]
  | cons c l ih =>
      intro i0
      have hc : c ≠ x := fun he => hx (he ▸ List.mem_cons_self c l)
      have hb : (c == x) = false := beq_eq_false_iff_ne.mpr hc
      rw [List.cons_append, List.findIdx?_cons, hb]
      simp only [Bool.false_eq_true, if_false]
      rw [ih (fun hm => hx (List.mem_cons_of_mem c hm)) (i0 + 1)]
      congr 1
      simp
      omega

lemma getElem?_inj_of_nodup (l : List Nat) (hnd : l.Nodup) {i j a : Nat}
    (h1 : l[i]? = some a) (h2 : l[j]? = some a) : i = j := by
  rcases List.getElem?_eq_some.mp h1 with ⟨hi, e1⟩
  rcases List.getElem?_eq_some.mp h2 with ⟨hj, e2⟩
  exact hnd.getElem_inj_iff.mp (e1.trans e2.symm)

lemma cycNext_of_findIdx (l : List Nat) (x i : Nat)
    (hfi : l.findIdx? (fun y => y == x) = some i) :
    cycNext l x = l.getD ((i + 1) % l.length) x := by
  unfold cycNext
  rw [hfi]

lemma cycNext_step (l : List Nat) (hnd : l.Nodup) (i x : Nat) (hx : l[i]? = some x) :
    l[(i + 1) % l.length]? = some (cycNext l x) := by
  have hi : i < l.length := by
    rcases List.getElem?_eq_some.mp hx with ⟨h, _⟩; exact h
  have hpos : 0 < l.length := by omega
  have hm : (i + 1) % l.length < l.length := Nat.mod_lt _ hpos
  have hfi : l.findIdx? (fun y => y == x) = some i := by
    simpa using findIdx_nodup l hnd 0 i x hx
  rw [cycNext_of_findIdx l x i hfi, List.getD_eq_getElem?_getD,
    List.getElem?_eq_getElem hm]
  simp

lemma cycNext_iterate (l : List Nat) (hnd : l.Nodup) :
    ∀ (k i x : Nat), l[i]? = some x →
      l[(i + k) % l.length]? = some ((cycNext l)^[k] x) := by
  intro k
  induction k with
  | zero =>
      intro i x hx
      have hi : i < l.length := by
        rcases List.getElem?_eq_some.mp hx with ⟨h, _⟩; exact h
      simpa [Nat.mod_eq_of_lt hi] using hx
  | succ k ih =>
      intro i x hx
      rw [Function.iterate_succ_apply]
      have h2 := ih ((i + 1) % l.length) (cycNext l x) (cycNext_step l hnd i x hx)
      rw [Nat.mod_add_mod] at h2
      have he : i + 1 + k = i + (k + 1) := by omega
      rwa [he] at h2

/-- C7: starting from the initial ring (the idle TCB alone, `next` pointing at
itself), after any sequence of N successful `EOS_ThreadNew` calls the ring is
`0 :: handles` — the idle TCB and every returned handle, each exactly once — of
length N+1; following `next` from any node returns to that node after exactly
N+1 steps and after no fewer; and each successful call splices the fresh TCB
immediately before the node `running` points at (its `next` is the ring head,
and the former last node's `next` becomes the fresh TCB). -/
theorem threadNew_ring_wellformed (args : List (Nat × Nat)) (st : KernelState)
    (hs : List Nat) (h : threadNewSeq initState args = some (st, hs)) :
    st.ring = 0 :: hs ∧
    st.ring.Nodup ∧
    st.ring.length = args.length + 1 ∧
    (∀ x ∈ st.ring, (cycNext st.ring)^[args.length + 1] x = x ∧
      ∀ k, 0 < k → k < args.length + 1 → (cycNext st.ring)^[k] x ≠ x) ∧
    (∀ (st₁ st₂ : KernelState) (p s hnew : Nat),
      EOS_ThreadNew st₁ p s = some (st₂, hnew) → hnew ∉ st₁.ring → st₁.ring ≠ [] →
      st₁.ring.Nodup →
      st₂.ring = st₁.ring ++ [hnew] ∧
      cycNext st₂.ring hnew = st₁.ring.headD 0 ∧
      cycNext st₂.ring (st₁.ring.getLastD 0) = hnew) := by
  obtain ⟨hr, hhs, hnid⟩ := threadNewSeq_spec args initState st hs h
  have hring : st.ring = List.range (args.length + 1) := by
    rw [hr, hhs]
    show [0] ++ List.range' 1 args.length = List.range (args.length + 1)
    rw [List.range_eq_range', List.range'_succ]
    rfl
  have hnd : st.ring.Nodup := by
    rw [hring, List.range_eq_range']
    exact List.nodup_range' 0 (args.length + 1)
  have hlen : st.ring.length = args.length + 1 := by
    rw [hring]; simp
  refine ⟨by rw [hr]; rfl, hnd, hlen, ?_, ?_⟩
  · intro x hxmem
    obtain ⟨i, hx⟩ := List.mem_iff_getElem?.mp hxmem
    have hi : i < st.ring.length := by
      rcases List.getElem?_eq_some.mp hx with ⟨hh, _⟩; exact hh
    constructor
    · have hit := cycNext_iterate st.ring hnd st.ring.length i x hx
      rw [Nat.add_mod_right, Nat.mod_eq_of_lt hi] at hit
      rw [← hlen]
      have := hx.symm.trans hit
      exact (Option.some.injEq _ _ ▸ this).symm
    · intro k hk0 hkN heq
      have hit := cycNext_iterate st.ring hnd k i x hx
      rw [heq] at hit
      have hik : (i + k) % st.ring.length = i :=
        getElem?_inj_of_nodup st.ring hnd hit hx
      have hkl : k < st.ring.length := by omega
      rcases Nat.lt_or_ge (i + k) st.ring.length with hlt | hge
      · rw [Nat.mod_eq_of_lt hlt] at hik; omega
      · have hsub : i + k - st.ring.length < st.ring.length := by omega
        rw [Nat.mod_eq_sub_mod hge, Nat.mod_eq_of_lt hsub] at hik
        omega
  · intro st₁ st₂ p s hnew hok hnotin hne hnd₁
    simp only [EOS_ThreadNew] at hok
    split_ifs at hok with hs64 hpr
    simp only [Option.some.injEq, Prod.mk.injEq] at hok
    obtain ⟨hst, hid⟩ := hok
    subst hid
    subst hst
    obtain ⟨c, t, hct⟩ := List.exists_cons_of_ne_nil hne
    have hlen₁ : 0 < st₁.ring.length := List.length_pos.mpr hne
    refine ⟨rfl, ?_, ?_⟩
    · show cycNext (st₁.ring ++ [st₁.nextId]) st₁.nextId = st₁.ring.headD 0
      have hfi0 : (st₁.ring ++ [st₁.nextId]).findIdx? (fun y => y == st₁.nextId) =
          some st₁.ring.length := by
        simpa using findIdx_append_fresh st₁.ring st₁.nextId hnotin 0
      rw [cycNext_of_findIdx _ _ _ hfi0]
      have hlen₂ : (st₁.ring ++ [st₁.nextId]).length = st₁.ring.length + 1 := by simp
      rw [hlen₂, Nat.mod_self, hct]
      rfl
    · show cycNext (st₁.ring ++ [st₁.nextId]) (st₁.ring.getLastD 0) = st₁.nextId
      have hn1 : st₁.ring.length - 1 < st₁.ring.length := by omega
      have hlastval : st₁.ring.getLastD 0 = st₁.ring[st₁.ring.length - 1] := by
        rw [List.getLastD_eq_getLast?, List.getLast?_eq_getElem?,
          List.getElem?_eq_getElem hn1]
        rfl
      have hlast : st₁.ring[st₁.ring.length - 1]? = some (st₁.ring.getLastD 0) := by
        rw [hlastval]
        exact List.getElem?_eq_getElem hn1
      have happ : (st₁.ring ++ [st₁.nextId])[st₁.ring.length - 1]? =
          some (st₁.ring.getLastD 0) := by
        rw [List.getElem?_append]
        simp only [hn1, if_true]
        exact hlast
      have hnd₂ : (st₁.ring ++ [st₁.nextId]).Nodup := by
        simp [List.nodup_append, hnd₁, hnotin]
      have hfi : (st₁.ring ++ [st₁.nextId]).findIdx?
          (fun y => y == st₁.ring.getLastD 0) = some (st₁.ring.length - 1) := by
        simpa using findIdx_nodup (st₁.ring ++ [st₁.nextId]) hnd₂ 0
          (st₁.ring.length - 1) (st₁.ring.getLastD 0) happ
      rw [cycNext_of_findIdx _ _ _ hfi]
      have hlen₂ : (st₁.ring ++ [st₁.nextId]).length = st₁.ring.length + 1 := by simp
      rw [hlen₂]
      have hm : (st₁.ring.length - 1 + 1) % (st₁.ring.length + 1) = st₁.ring.length := by
        have : st₁.ring.length - 1 + 1 = st₁.ring.length := by omega
        rw [this, Nat.mod_eq_of_lt (by omega)]
      rw [hm, List.getD_eq_getElem?_getD, List.getElem?_append]
      simp

/-- Witness for C7: two successful creates (HIGH with a 64-word stack, LOW with a
128-word stack) from the initial ring give the ring `[0, 1, 2]`. -/
theorem threadNew_ring_wellformed_witness :
    (KernelState.mk [0, 1, 2] 3).ring = 0 :: [1, 2] ∧
    (KernelState.mk [0, 1, 2] 3).ring.Nodup ∧
    (KernelState.mk [0, 1, 2] 3).ring.length =
      [((3 : Nat), (64 : Nat)), (1, 128)].length + 1 ∧
    (∀ x ∈ (KernelState.mk [0, 1, 2] 3).ring,
      (cycNext (KernelState.mk [0, 1, 2] 3).ring)^[
        [((3 : Nat), (64 : Nat)), (1, 128)].length + 1] x = x ∧
      ∀ k, 0 < k → k < [((3 : Nat), (64 : Nat)), (1, 128)].length + 1 →
        (cycNext (KernelState.mk [0, 1, 2] 3).ring)^[k] x ≠ x) ∧
    (∀ (st₁ st₂ : KernelState) (p s hnew : Nat),
      EOS_ThreadNew st₁ p s = some (st₂, hnew) → hnew ∉ st₁.ring → st₁.ring ≠ [] →
      st₁.ring.Nodup →
      st₂.ring = st₁.ring ++ [hnew] ∧
      cycNext st₂.ring hnew = st₁.ring.headD 0 ∧
      cycNext st₂.ring (st₁.ring.getLastD 0) = hnew) :=
  threadNew_ring_wellformed [(3, 64), (1, 128)] (KernelState.mk [0, 1, 2] 3) [1, 2] rfl

end EvanRTOS
